import Mathlib

/-!
Verification of the Amazon Leadership Principles lookup server
(`amazon_lp_mcp_server.py`).

Strings are embedded as lists of characters (`Str`), so that Python's
per-character operations (`str.lower()`, `str.replace("-", " ")`,
`str.title()`, slicing, substring test `in`, `str.find`) become structurally
recursive Lean functions.  Python dicts preserve insertion order, so the
transcript mapping is embedded as an association list in dataset order.
-/

/-- Python strings, embedded as lists of characters. -/
abbrev Str := List Char

/-- Python `str.lower()`: per-character lower-casing. -/
def lowerStr (s : Str) : Str := s.map Char.toLower

/-- Python `s.replace("-", " ")`: every hyphen becomes a space. -/
def replaceDash (s : Str) : Str := s.map (fun c => if c = '-' then ' ' else c)

/-- Helper for Python `str.title()`: the Boolean records whether the previous
character was a cased (alphabetic) character. -/
def titleAux : Bool → Str → Str
  | _, [] => []
  | prevCased, c :: rest =>
    if c.isAlpha then
      (if prevCased then c.toLower else c.toUpper) :: titleAux true rest
    else
      c :: titleAux false rest

/-- Python `str.title()`: the first letter of each alphabetic run is
upper-cased, the rest lower-cased. -/
def titleStr (s : Str) : Str := titleAux false s

/-- `isPrefixB p s` decides whether `p` is a prefix of `s`. -/
def isPrefixB : Str → Str → Bool
  | [], _ => true
  | _ :: _, [] => false
  | a :: as, b :: bs => a == b && isPrefixB as bs

/-- Python `hay.find(needle)` restricted to the found case: the least index
at which `needle` occurs in `hay`, if any. -/
def findSub (needle : Str) : Str → Option Nat
  | [] => if isPrefixB needle [] then some 0 else none
  | c :: rest =>
    if isPrefixB needle (c :: rest) then some 0
    else Option.map (· + 1) (findSub needle rest)

/-- Python `needle in hay` (equivalently `hay.find(needle) != -1`). -/
def containsSub (hay needle : Str) : Bool :=
  match findSub needle hay with
  | some _ => true
  | none => false

/-- Python `hay.find(needle)` as used in `search_transcripts`, where the
caller has already checked `needle in hay`, so the not-found value `-1`
is unreachable (modelled as `0`). -/
def firstIdx (hay needle : Str) : Nat :=
  match findSub needle hay with
  | some i => i
  | none => 0

/-- `needle` occurs in `hay` at index `i`. -/
def occursAt (hay needle : Str) (i : Nat) : Prop :=
  isPrefixB needle (hay.drop i) = true

/-- A single leadership principle (`LPPrinciple` model). -/
structure Principle where
  name : Str
  description : Str
deriving DecidableEq

/-- The parsed `amazon-lp.json` payload (`lp_data`). -/
structure LPData where
  introduction : Str
  principles : List Principle
deriving DecidableEq

/-- The parsed `transcripts.json` payload (`transcript_data`): an
insertion-ordered mapping from slug key to transcript text. -/
abbrev TranscriptData := List (Str × Str)

/-- Response model `LPListResponse`. -/
structure LPListResponse where
  introduction : Str
  principles : List Principle
deriving DecidableEq

/-- Response model `LPSearchResponse` (`matchList` embeds the source field
`matches`, a reserved word in Lean). -/
structure LPSearchResponse where
  matchList : List Principle
  query : Str
deriving DecidableEq

/-- Response model `LPGetResponse`. -/
structure LPGetResponse where
  principle : Option Principle
  found : Bool
  message : Str
deriving DecidableEq

/-- Response model `TranscriptResponse`. -/
structure TranscriptResponse where
  principle_name : Str
  transcript : Str
  found : Bool
  message : Str
deriving DecidableEq

/-- One entry of `TranscriptSearchResponse.matches`. -/
structure TMatch where
  principle_name : Str
  context : Str
deriving DecidableEq

/-- Response model `TranscriptSearchResponse` (`matchList` embeds the source
field `matches`). -/
structure TranscriptSearchResponse where
  matchList : List TMatch
  query : Str
deriving DecidableEq

/-- Message `f"Found leadership principle: {name}"`. -/
def msgP1 (n : Str) : Str := "Found leadership principle: ".data ++ n

/-- Message for the loose-match branch of `get_principle`. -/
def msgP2 (n : Str) : Str :=
  "Found leadership principle (partial match): ".data ++ n

/-- Message `f"No leadership principle found with name: {name}"`. -/
def msgP3 (n : Str) : Str :=
  "No leadership principle found with name: ".data ++ n

/-- Message `f"Found transcript for: {name}"`. -/
def msgT1 (n : Str) : Str := "Found transcript for: ".data ++ n

/-- Message for the loose-match branch of `get_transcript`. -/
def msgT2 (n : Str) : Str :=
  "Found transcript for (partial match): ".data ++ n

/-- Message `f"No transcript found for leadership principle: {name}"`. -/
def msgT4 (n : Str) : Str :=
  "No transcript found for leadership principle: ".data ++ n

/-- `list_principles`. -/
def list_principles (d : LPData) : LPListResponse :=
  ⟨d.introduction, d.principles⟩

/-- The accumulation loop of `search_principles`. -/
def searchPMatches (q : Str) : List Principle → List Principle
  | [] => []
  | p :: rest =>
    if containsSub (lowerStr p.name) q || containsSub (lowerStr p.description) q then
      p :: searchPMatches q rest
    else
      searchPMatches q rest

/-- `search_principles`: `query = query.lower()`, then collect every
principle whose lowered name or description contains it. -/
def search_principles (d : LPData) (query : Str) : LPSearchResponse :=
  ⟨searchPMatches (lowerStr query) d.principles, lowerStr query⟩

/-- `get_principle`: first an exact case-insensitive scan, then a
query-in-name substring scan, else not found. -/
def get_principle (d : LPData) (name : Str) : LPGetResponse :=
  match d.principles.find? (fun p => lowerStr p.name == lowerStr name) with
  | some p => ⟨some p, true, msgP1 p.name⟩
  | none =>
    match d.principles.find? (fun p => containsSub (lowerStr p.name) (lowerStr name)) with
    | some p => ⟨some p, true, msgP2 p.name⟩
    | none => ⟨none, false, msgP3 name⟩

/-- `get_introduction`. -/
def get_introduction (d : LPData) : Str := d.introduction

/-- `principle_name.replace("-", " ")` lower-cased: the normalized form of a
stored transcript key as compared in `get_transcript`. -/
def normKey (k : Str) : Str := lowerStr (replaceDash k)

/-- Formatted display name: `principle_name.replace("-", " ").title()`. -/
def displayName (k : Str) : Str := titleStr (replaceDash k)

/-- The third phase of `get_transcript`: scan the principles for an exact
case-insensitive name match and, for each such principle, scan the
transcripts for a bidirectional substring match between the normalized key
and the principle's lowered name; continue with the next principle when no
transcript matches. -/
def crossLookup (td : TranscriptData) (nl : Str) :
    List Principle → Option TranscriptResponse
  | [] => none
  | p :: rest =>
    if lowerStr p.name == nl then
      match td.find? (fun kv =>
          containsSub (lowerStr p.name) (normKey kv.1) ||
          containsSub (normKey kv.1) (lowerStr p.name)) with
      | some kv => some ⟨p.name, kv.2, true, msgT1 p.name⟩
      | none => crossLookup td nl rest
    else crossLookup td nl rest

/-- `get_transcript`: (1) exact match of the lowered query against a
normalized key; (2) query-contained-in-normalized-key scan; (3) the
principle-name cross-reference (`crossLookup`); (4) not found, echoing the
query verbatim with an empty transcript. -/
def get_transcript (lp : LPData) (td : TranscriptData) (name : Str) :
    TranscriptResponse :=
  match td.find? (fun kv => normKey kv.1 == lowerStr name) with
  | some kv => ⟨displayName kv.1, kv.2, true, msgT1 (displayName kv.1)⟩
  | none =>
    match td.find? (fun kv => containsSub (normKey kv.1) (lowerStr name)) with
    | some kv => ⟨displayName kv.1, kv.2, true, msgT2 (displayName kv.1)⟩
    | none =>
      match crossLookup td (lowerStr name) lp.principles with
      | some r => r
      | none => ⟨name, [], false, msgT4 name⟩

/-- `list_transcripts`: the accumulation loop over the transcript keys. -/
def list_transcripts : TranscriptData → List Str
  | [] => []
  | (k, _) :: rest => displayName k :: list_transcripts rest

/-- The context-window extraction of `search_transcripts`:
`index = transcript.lower().find(query)`, `start = max(0, index - 100)`,
`end = min(len(transcript), index + len(query) + 100)`, slice the
original-cased text, and add ellipses at clamped boundaries. -/
def mkContext (t q : Str) : Str :=
  let index := firstIdx (lowerStr t) q
  let start := index - 100
  let stop := min t.length (index + q.length + 100)
  let context := (t.drop start).take (stop - start)
  let left := if 0 < start then "...".data ++ context else context
  if stop < t.length then left ++ "...".data else left

/-- The accumulation loop of `search_transcripts`. -/
def searchTMatches (q : Str) : TranscriptData → List TMatch
  | [] => []
  | (k, t) :: rest =>
    if containsSub (lowerStr t) q then
      ⟨displayName k, mkContext t q⟩ :: searchTMatches q rest
    else
      searchTMatches q rest

/-- `search_transcripts`: `query = query.lower()`, then one context record
per transcript whose lowered body contains the query. -/
def search_transcripts (td : TranscriptData) (query : Str) :
    TranscriptSearchResponse :=
  ⟨searchTMatches (lowerStr query) td, lowerStr query⟩

/-- The state of a data file as seen by Python's `open`. -/
inductive FileState (α : Type) : Type where
  | missing : FileState α
  | unreadable : FileState α
  | present : α → FileState α
deriving DecidableEq

/-- A Python exception escaping the loader. -/
inductive PyError : Type where
  | permissionError : PyError
deriving DecidableEq

/-- `load_lp_data`: the `try/except FileNotFoundError` catches only a missing
file and returns the empty default; opening an existing but unreadable file
raises `PermissionError`, which the `except` clause does not catch and which
therefore propagates. -/
def load_lp_data : FileState LPData → Except PyError LPData
  | .missing => .ok ⟨[], []⟩
  | .unreadable => .error .permissionError
  | .present d => .ok d

/-- `load_transcript_data`: same shape as `load_lp_data`, with `{}` as the
empty default. -/
def load_transcript_data : FileState TranscriptData → Except PyError TranscriptData
  | .missing => .ok []
  | .unreadable => .error .permissionError
  | .present td => .ok td

/-- The module-level state of the server: the loaded `lp_data` and
`transcript_data` snapshots. -/
structure ServerState where
  lp : LPData
  td : TranscriptData
deriving DecidableEq

/-- One tool invocation with its string argument. -/
inductive Op : Type where
  | listPrinciples : Op
  | searchPrinciples : Str → Op
  | getPrinciple : Str → Op
  | getIntroduction : Op
  | getTranscript : Str → Op
  | listTranscripts : Op
  | searchTranscripts : Str → Op

/-- The result of one tool invocation. -/
inductive Output : Type where
  | lpList : LPListResponse → Output
  | lpSearch : LPSearchResponse → Output
  | lpGet : LPGetResponse → Output
  | introText : Str → Output
  | tGet : TranscriptResponse → Output
  | tList : List Str → Output
  | tSearch : TranscriptSearchResponse → Output

/-- One tool invocation: the tool bodies read the module-level data and never
rebind it, so the state component of the step is the incoming state. -/
def step (s : ServerState) : Op → ServerState × Output
  | .listPrinciples => (s, .lpList (list_principles s.lp))
  | .searchPrinciples q => (s, .lpSearch (search_principles s.lp q))
  | .getPrinciple n => (s, .lpGet (get_principle s.lp n))
  | .getIntroduction => (s, .introText (get_introduction s.lp))
  | .getTranscript n => (s, .tGet (get_transcript s.lp s.td n))
  | .listTranscripts => (s, .tList (list_transcripts s.td))
  | .searchTranscripts q => (s, .tSearch (search_transcripts s.td q))

/-- Run a sequence of tool invocations, threading the server state. -/
def runOps (s : ServerState) : List Op → ServerState
  | [] => s
  | op :: ops => runOps (step s op).1 ops

/-- Empty principles payload, the load-failure default. -/
def emptyLP : LPData := ⟨[], []⟩

/-- Example principle "Customer Obsession". -/
def pCO : Principle :=
  ⟨"Customer Obsession".data, "Leaders start with the customer".data⟩

/-- Example dataset with a single principle. -/
def dEx : LPData := ⟨"intro".data, [pCO]⟩

/-- Example transcript dataset: a single key whose normalized form is a
substring of the query used against it. -/
def tdBig : TranscriptData := [(("big".data : Str), ("B TEXT".data : Str))]

/-- Example transcript dataset keyed by a hyphenated slug. -/
def tdCO : TranscriptData :=
  [(("customer-obsession".data : Str), ("T".data : Str))]

/-- Example transcript dataset with one entry under key "a". -/
def tdA : TranscriptData := [(("a".data : Str), ("T".data : Str))]

/-- Example transcript dataset with one short transcript. -/
def tdW : TranscriptData := [(("think-big".data : Str), ("T1".data : Str))]

theorem isPrefixB_iff (p : Str) : ∀ s : Str, isPrefixB p s = true ↔ ∃ r, s = p ++ r := by
  induction p with
  | nil => intro s; simp [isPrefixB]
  | cons a as ih =>
    intro s
    cases s with
    | nil => simp [isPrefixB]
    | cons b bs =>
      simp only [isPrefixB, Bool.and_eq_true, beq_iff_eq, ih bs]
      constructor
      · rintro ⟨rfl, r, rfl⟩; exact ⟨r, rfl⟩
      · rintro ⟨r, h⟩
        injection h with h1 h2
        exact ⟨h1.symm, r, h2⟩

theorem isPrefixB_append (p r : Str) : isPrefixB p (p ++ r) = true :=
  (isPrefixB_iff p (p ++ r)).2 ⟨r, rfl⟩

theorem findSub_eq_some (needle : Str) :
    ∀ (hay : Str) (i : Nat), findSub needle hay = some i →
      occursAt hay needle i ∧ ∀ j, j < i → ¬ occursAt hay needle j := by
  intro hay
  induction hay with
  | nil =>
    intro i h
    simp only [findSub] at h
    by_cases hp : isPrefixB needle [] = true
    · simp [hp] at h
      subst h
      exact ⟨hp, by omega⟩
    · simp [hp] at h
  | cons c rest ih =>
    intro i h
    unfold findSub at h
    by_cases hp : isPrefixB needle (c :: rest) = true
    · rw [if_pos hp] at h
      injection h with h
      subst h
      exact ⟨hp, by omega⟩
    · rw [if_neg hp] at h
      cases hf : findSub needle rest with
      | none => rw [hf] at h; exact absurd h (by simp)
      | some i0 =>
        rw [hf] at h
        have hi : i0 + 1 = i := by simpa using h
        subst hi
        obtain ⟨hocc, hmin⟩ := ih i0 hf
        refine ⟨hocc, ?_⟩
        intro j hj
        cases j with
        | zero => simpa [occursAt] using hp
        | succ j0 =>
          have hj0 : j0 < i0 := by omega
          simpa [occursAt] using hmin j0 hj0

theorem findSub_eq_none (needle : Str) :
    ∀ hay : Str, findSub needle hay = none → ∀ i, ¬ occursAt hay needle i := by
  intro hay
  induction hay with
  | nil =>
    intro h i
    simp only [findSub] at h
    by_cases hp : isPrefixB needle [] = true
    · simp [hp] at h
    · intro hocc
      exact hp (by simpa [occursAt, List.drop_nil] using hocc)
  | cons c rest ih =>
    intro h i
    unfold findSub at h
    by_cases hp : isPrefixB needle (c :: rest) = true
    · rw [if_pos hp] at h; exact absurd h (by simp)
    · rw [if_neg hp] at h
      cases hf : findSub needle rest with
      | some i0 => rw [hf] at h; exact absurd h (by simp)
      | none =>
        cases i with
        | zero => simpa [occursAt] using hp
        | succ i0 => simpa [occursAt] using ih hf i0

theorem containsSub_iff_exists (hay needle : Str) :
    containsSub hay needle = true ↔ ∃ l r, hay = l ++ needle ++ r := by
  constructor
  · intro h
    unfold containsSub at h
    cases hf : findSub needle hay with
    | none => rw [hf] at h; simp at h
    | some i =>
      obtain ⟨hocc, -⟩ := findSub_eq_some needle hay i hf
      obtain ⟨r, hr⟩ := (isPrefixB_iff needle (hay.drop i)).1 hocc
      refine ⟨hay.take i, r, ?_⟩
      calc hay = hay.take i ++ hay.drop i := (List.take_append_drop i hay).symm
        _ = hay.take i ++ needle ++ r := by rw [hr, List.append_assoc]
  · rintro ⟨l, r, rfl⟩
    unfold containsSub
    cases hf : findSub needle (l ++ needle ++ r) with
    | some i => rfl
    | none =>
      exfalso
      have hocc : occursAt (l ++ needle ++ r) needle l.length := by
        unfold occursAt
        rw [List.append_assoc, List.drop_left]
        exact isPrefixB_append needle r
      exact findSub_eq_none needle _ hf l.length hocc

theorem containsSub_nil_right (hay : Str) : containsSub hay [] = true :=
  (containsSub_iff_exists hay []).2 ⟨[], hay, by simp⟩

theorem find?_decomp {α : Type} (p : α → Bool) :
    ∀ (l : List α) (a : α), l.find? p = some a →
      ∃ l1 l2, l = l1 ++ a :: l2 ∧ (∀ b ∈ l1, p b = false) ∧ p a = true := by
  intro l
  induction l with
  | nil => intro a h; simp at h
  | cons x xs ih =>
    intro a h
    by_cases hx : p x = true
    · rw [List.find?_cons_of_pos _ hx] at h
      injection h with h
      subst h
      exact ⟨[], xs, rfl, by simp, hx⟩
    · have hx' : p x = false := by simpa using hx
      rw [List.find?_cons_of_neg _ (by simp [hx'])] at h
      obtain ⟨l1, l2, rfl, hl1, hpa⟩ := ih a h
      exact ⟨x :: l1, l2, rfl, by
        intro b hb
        rcases List.mem_cons.1 hb with rfl | hb
        · exact hx'
        · exact hl1 b hb, hpa⟩

theorem find?_isSome_of_mem {α : Type} (p : α → Bool) (l : List α) (a : α)
    (hmem : a ∈ l) (hp : p a = true) : ∃ b, l.find? p = some b := by
  cases hf : l.find? p with
  | some b => exact ⟨b, rfl⟩
  | none =>
    exact absurd hp (by simpa using List.find?_eq_none.1 hf a hmem)

theorem searchPMatches_eq_filter (q : Str) :
    ∀ ps : List Principle, searchPMatches q ps =
      ps.filter (fun p =>
        containsSub (lowerStr p.name) q || containsSub (lowerStr p.description) q) := by
  intro ps
  induction ps with
  | nil => rfl
  | cons p rest ih =>
    by_cases hc : (containsSub (lowerStr p.name) q ||
        containsSub (lowerStr p.description) q) = true
    · simp only [searchPMatches, hc, if_true, List.filter_cons, ih]
    · have hc' := Bool.eq_false_iff.2 (fun h => hc h)
      simp only [searchPMatches, hc', Bool.false_eq_true, if_false,
        List.filter_cons, ih]

theorem searchTMatches_eq_filter (q : Str) :
    ∀ td : TranscriptData, searchTMatches q td =
      (td.filter (fun kv => containsSub (lowerStr kv.2) q)).map
        (fun kv => ⟨displayName kv.1, mkContext kv.2 q⟩) := by
  intro td
  induction td with
  | nil => rfl
  | cons kv rest ih =>
    obtain ⟨k, t⟩ := kv
    by_cases hc : containsSub (lowerStr t) q = true
    · simp only [searchTMatches, hc, if_true, List.filter_cons, List.map_cons, ih]
    · have hc' := Bool.eq_false_iff.2 (fun h => hc h)
      simp only [searchTMatches, hc', Bool.false_eq_true, if_false,
        List.filter_cons, ih]

theorem list_transcripts_eq_map :
    ∀ td : TranscriptData, list_transcripts td = td.map (fun kv => displayName kv.1) := by
  intro td
  induction td with
  | nil => rfl
  | cons kv rest ih =>
    obtain ⟨k, t⟩ := kv
    simp only [list_transcripts, List.map_cons, ih]

/-- C3: `GetPrinciple` resolves by (1) case-insensitive exact scan in dataset
order, (2) case-insensitive query-in-name substring scan in dataset order,
(3) not-found; an exact match (up to case) always takes the exact-match path
with its message, never the partial-match path. -/
theorem getPrinciple_resolution (d : LPData) (name : Str) :
    ((∃ p ∈ d.principles, lowerStr p.name = lowerStr name) →
      ∃ l1 p l2, d.principles = l1 ++ p :: l2 ∧ lowerStr p.name = lowerStr name ∧
        (∀ p2 ∈ l1, lowerStr p2.name ≠ lowerStr name) ∧
        get_principle d name = ⟨some p, true, msgP1 p.name⟩) ∧
    ((∀ p ∈ d.principles, lowerStr p.name ≠ lowerStr name) →
      (∃ p ∈ d.principles, containsSub (lowerStr p.name) (lowerStr name) = true) →
      ∃ l1 p l2, d.principles = l1 ++ p :: l2 ∧
        containsSub (lowerStr p.name) (lowerStr name) = true ∧
        (∀ p2 ∈ l1, containsSub (lowerStr p2.name) (lowerStr name) = false) ∧
        get_principle d name = ⟨some p, true, msgP2 p.name⟩) ∧
    ((∀ p ∈ d.principles, lowerStr p.name ≠ lowerStr name ∧
        containsSub (lowerStr p.name) (lowerStr name) = false) →
      get_principle d name = ⟨none, false, msgP3 name⟩) := by
  refine ⟨?_, ?_, ?_⟩
  · rintro ⟨p0, hmem, heq⟩
    obtain ⟨b, hb⟩ := find?_isSome_of_mem
      (fun p => lowerStr p.name == lowerStr name) d.principles p0 hmem
      (beq_iff_eq.2 heq)
    obtain ⟨l1, l2, hdec, hl1, hpb⟩ := find?_decomp _ _ _ hb
    refine ⟨l1, b, l2, hdec, beq_iff_eq.1 hpb, ?_, ?_⟩
    · intro p2 hp2 hcon
      have := hl1 p2 hp2
      rw [beq_iff_eq.2 hcon] at this
      exact absurd this (by simp)
    · unfold get_principle
      rw [hb]
  · intro hnoex ⟨p0, hmem, hcon⟩
    have hnone : d.principles.find? (fun p => lowerStr p.name == lowerStr name) = none := by
      apply List.find?_eq_none.2
      intro p hp
      simpa using hnoex p hp
    obtain ⟨b, hb⟩ := find?_isSome_of_mem
      (fun p => containsSub (lowerStr p.name) (lowerStr name)) d.principles p0 hmem hcon
    obtain ⟨l1, l2, hdec, hl1, hpb⟩ := find?_decomp _ _ _ hb
    refine ⟨l1, b, l2, hdec, hpb, ?_, ?_⟩
    · intro p2 hp2
      exact hl1 p2 hp2
    · unfold get_principle
      rw [hnone, hb]
  · intro hall
    have h1 : d.principles.find? (fun p => lowerStr p.name == lowerStr name) = none := by
      apply List.find?_eq_none.2
      intro p hp
      simpa using (hall p hp).1
    have h2 : d.principles.find?
        (fun p => containsSub (lowerStr p.name) (lowerStr name)) = none := by
      apply List.find?_eq_none.2
      intro p hp
      simp [(hall p hp).2]
    unfold get_principle
    rw [h1, h2]

/-- Witness for C3: over the example dataset, the query "CUSTOMER OBSESSION"
takes the exact-match path. -/
theorem getPrinciple_resolution_witness :
    (∃ p ∈ dEx.principles, lowerStr p.name = lowerStr ("CUSTOMER OBSESSION".data)) ∧
    (∃ l1 p l2, dEx.principles = l1 ++ p :: l2 ∧
      lowerStr p.name = lowerStr ("CUSTOMER OBSESSION".data) ∧
      (∀ p2 ∈ l1, lowerStr p2.name ≠ lowerStr ("CUSTOMER OBSESSION".data)) ∧
      get_principle dEx ("CUSTOMER OBSESSION".data) = ⟨some p, true, msgP1 p.name⟩) :=
  ⟨⟨pCO, by decide, by decide⟩,
   (getPrinciple_resolution dEx ("CUSTOMER OBSESSION".data)).1 ⟨pCO, by decide, by decide⟩⟩

/-- C4: `SearchPrinciples` returns exactly the principles whose lowered name
or description contains the lowered query, in dataset order; the empty query
returns every principle. -/
theorem searchPrinciples_spec (d : LPData) (query : Str) :
    List.Sublist (search_principles d query).matchList d.principles ∧
    (∀ p, p ∈ (search_principles d query).matchList ↔
      (p ∈ d.principles ∧
        ((∃ l r, lowerStr p.name = l ++ lowerStr query ++ r) ∨
         (∃ l r, lowerStr p.description = l ++ lowerStr query ++ r)))) ∧
    (query = [] → (search_principles d query).matchList = d.principles) := by
  have hm : (search_principles d query).matchList =
      d.principles.filter (fun p =>
        containsSub (lowerStr p.name) (lowerStr query) ||
        containsSub (lowerStr p.description) (lowerStr query)) :=
    searchPMatches_eq_filter (lowerStr query) d.principles
  refine ⟨?_, ?_, ?_⟩
  · rw [hm]; exact List.filter_sublist _
  · intro p
    rw [hm, List.mem_filter]
    constructor
    · rintro ⟨hmem, hcond⟩
      simp only [Bool.or_eq_true] at hcond
      rcases hcond with h | h
      · exact ⟨hmem, Or.inl ((containsSub_iff_exists _ _).1 h)⟩
      · exact ⟨hmem, Or.inr ((containsSub_iff_exists _ _).1 h)⟩
    · rintro ⟨hmem, h | h⟩
      · refine ⟨hmem, ?_⟩
        simp only [Bool.or_eq_true]
        exact Or.inl ((containsSub_iff_exists _ _).2 h)
      · refine ⟨hmem, ?_⟩
        simp only [Bool.or_eq_true]
        exact Or.inr ((containsSub_iff_exists _ _).2 h)
  · intro hq
    subst hq
    rw [hm]
    apply List.filter_eq_self.2
    intro p hp
    simp [lowerStr, containsSub_nil_right]

/-- Witness for C4: "obsession" matches the example principle through its
name. -/
theorem searchPrinciples_spec_witness :
    pCO ∈ (search_principles dEx ("obsession".data)).matchList :=
  ((searchPrinciples_spec dEx ("obsession".data)).2.1 pCO).2
    ⟨by decide, Or.inl ⟨"customer ".data, [], by decide⟩⟩

/-- C6: `ListTranscripts` maps every transcript key, in dataset order, to its
display name (hyphen to space, then title-case); in particular the keys
"think-big" and "bias-for-action" become "Think Big" and "Bias For Action". -/
theorem listTranscripts_spec (td : TranscriptData) (t1 t2 : Str) :
    list_transcripts td = td.map (fun kv => titleStr (replaceDash kv.1)) ∧
    list_transcripts [(("think-big".data : Str), t1), (("bias-for-action".data : Str), t2)] =
      ["Think Big".data, "Bias For Action".data] := by
  constructor
  · rw [list_transcripts_eq_map]
    simp only [displayName]
  · rfl

/-- C9: the `query` field echoed by `SearchPrinciples` and
`SearchTranscripts` is the lower-cased form of the argument, which differs
from the argument as given whenever the argument has an upper-case letter. -/
theorem searchQuery_echo (d : LPData) (td : TranscriptData) (q : Str) :
    (search_principles d q).query = lowerStr q ∧
    (search_transcripts td q).query = lowerStr q ∧
    (search_principles d ("Ownership".data)).query ≠ "Ownership".data := by
  refine ⟨rfl, rfl, ?_⟩
  show lowerStr ("Ownership".data) ≠ "Ownership".data
  decide

theorem crossLookup_found (td : TranscriptData) (nl : Str) :
    ∀ (ps : List Principle) (r : TranscriptResponse),
      crossLookup td nl ps = some r → r.found = true := by
  intro ps
  induction ps with
  | nil => intro r h; simp [crossLookup] at h
  | cons p rest ih =>
    intro r h
    unfold crossLookup at h
    by_cases hp : (lowerStr p.name == nl) = true
    · rw [if_pos hp] at h
      cases hf : td.find? (fun kv =>
          containsSub (lowerStr p.name) (normKey kv.1) ||
          containsSub (normKey kv.1) (lowerStr p.name)) with
      | some kv =>
        rw [hf] at h
        injection h with h
        rw [← h]
      | none =>
        rw [hf] at h
        exact ih r h
    · rw [if_neg hp] at h
      exact ih r h

/-- C10: when `GetTranscript` finds no match, the returned record carries the
query string exactly as given in `principle_name` and an empty transcript. -/
theorem getTranscript_notFound (lp : LPData) (td : TranscriptData) (name : Str)
    (h : (get_transcript lp td name).found = false) :
    (get_transcript lp td name).principle_name = name ∧
    (get_transcript lp td name).transcript = [] := by
  unfold get_transcript at h ⊢
  cases h1 : td.find? (fun kv => normKey kv.1 == lowerStr name) with
  | some kv => rw [h1] at h; simp at h
  | none =>
    cases h2 : td.find? (fun kv => containsSub (normKey kv.1) (lowerStr name)) with
    | some kv => rw [h1, h2] at h; simp at h
    | none =>
      cases h3 : crossLookup td (lowerStr name) lp.principles with
      | some r =>
        have hr := crossLookup_found td (lowerStr name) lp.principles r h3
        rw [h1, h2, h3] at h
        simp only [] at h
        rw [hr] at h
        exact Bool.noConfusion h
      | none =>
        exact ⟨rfl, rfl⟩

/-- Witness for C10: over empty data, any query is not found and is echoed
verbatim with an empty transcript. -/
theorem getTranscript_notFound_witness :
    (get_transcript emptyLP [] ("x".data)).found = false ∧
    (get_transcript emptyLP [] ("x".data)).principle_name = "x".data ∧
    (get_transcript emptyLP [] ("x".data)).transcript = [] :=
  ⟨by decide, (getTranscript_notFound emptyLP [] ("x".data) (by decide)).1,
   (getTranscript_notFound emptyLP [] ("x".data) (by decide)).2⟩

theorem step_state (s : ServerState) (op : Op) : (step s op).1 = s := by
  cases op <;> rfl

/-- C8: no tool invocation mutates the loaded snapshot: any sequence of
invocations leaves the server state unchanged, so repeated `ListPrinciples`
calls return identical results. -/
theorem opsPreserveState (s : ServerState) (ops : List Op) :
    runOps s ops = s ∧
    list_principles (runOps s ops).lp = list_principles s.lp ∧
    (step s Op.listPrinciples).2 = (step (runOps s ops) Op.listPrinciples).2 := by
  have h : runOps s ops = s := by
    induction ops with
    | nil => rfl
    | cons op rest ih =>
      show runOps (step s op).1 rest = s
      rw [step_state s op]
      exact ih
  exact ⟨h, by rw [h], by rw [h]⟩

theorem crossLookup_eq_none (td : TranscriptData) (nl : Str) :
    ∀ ps : List Principle,
      (∀ p ∈ ps, lowerStr p.name = nl →
        ∀ kv ∈ td, containsSub (lowerStr p.name) (normKey kv.1) = false ∧
          containsSub (normKey kv.1) (lowerStr p.name) = false) →
      crossLookup td nl ps = none := by
  intro ps
  induction ps with
  | nil => intro _; rfl
  | cons p rest ih =>
    intro hall
    unfold crossLookup
    by_cases hp : (lowerStr p.name == nl) = true
    · rw [if_pos hp]
      have hfind : td.find? (fun kv =>
          containsSub (lowerStr p.name) (normKey kv.1) ||
          containsSub (normKey kv.1) (lowerStr p.name)) = none := by
        apply List.find?_eq_none.2
        intro kv hkv
        have h2 := hall p (List.mem_cons_self p rest) (beq_iff_eq.1 hp) kv hkv
        simp [h2.1, h2.2]
      rw [hfind]
      exact ih (fun p2 hp2 => hall p2 (List.mem_cons_of_mem p hp2))
    · rw [if_neg hp]
      exact ih (fun p2 hp2 => hall p2 (List.mem_cons_of_mem p hp2))

theorem crossLookup_eq_some (td : TranscriptData) (nl : Str) :
    ∀ ps : List Principle,
      (∃ p ∈ ps, lowerStr p.name = nl ∧
        ∃ kv ∈ td, (containsSub (lowerStr p.name) (normKey kv.1) ||
          containsSub (normKey kv.1) (lowerStr p.name)) = true) →
      ∃ l1 p l2 t1 kv t2, ps = l1 ++ p :: l2 ∧ td = t1 ++ kv :: t2 ∧
        lowerStr p.name = nl ∧
        (∀ p2 ∈ l1, lowerStr p2.name = nl →
          ∀ kv2 ∈ td, containsSub (lowerStr p2.name) (normKey kv2.1) = false ∧
            containsSub (normKey kv2.1) (lowerStr p2.name) = false) ∧
        (containsSub (lowerStr p.name) (normKey kv.1) ||
          containsSub (normKey kv.1) (lowerStr p.name)) = true ∧
        (∀ kv2 ∈ t1, (containsSub (lowerStr p.name) (normKey kv2.1) ||
          containsSub (normKey kv2.1) (lowerStr p.name)) = false) ∧
        crossLookup td nl ps = some ⟨p.name, kv.2, true, msgT1 p.name⟩ := by
  intro ps
  induction ps with
  | nil =>
    rintro ⟨p, hmem, -⟩
    exact absurd hmem (List.not_mem_nil p)
  | cons p rest ih =>
    rintro ⟨p0, hmem0, hname0, hkv0⟩
    by_cases hname : (lowerStr p.name == nl) = true
    · cases hfind : td.find? (fun kv =>
          containsSub (lowerStr p.name) (normKey kv.1) ||
          containsSub (normKey kv.1) (lowerStr p.name)) with
      | some kv =>
        obtain ⟨t1, t2, htd, ht1, hpkv⟩ := find?_decomp _ _ _ hfind
        refine ⟨[], p, rest, t1, kv, t2, rfl, htd, beq_iff_eq.1 hname, ?_, hpkv,
          fun kv2 hkv2 => ht1 kv2 hkv2, ?_⟩
        · intro p2 hp2
          exact absurd hp2 (List.not_mem_nil p2)
        · unfold crossLookup
          rw [if_pos hname, hfind]
      | none =>
        have hnone : ∀ kv ∈ td,
            (containsSub (lowerStr p.name) (normKey kv.1) ||
              containsSub (normKey kv.1) (lowerStr p.name)) = false := by
          intro kv hkv
          simpa using List.find?_eq_none.1 hfind kv hkv
        have hrest : ∃ p1 ∈ rest, lowerStr p1.name = nl ∧
            ∃ kv ∈ td, (containsSub (lowerStr p1.name) (normKey kv.1) ||
              containsSub (normKey kv.1) (lowerStr p1.name)) = true := by
          rcases List.mem_cons.1 hmem0 with rfl | hmem0a
          · obtain ⟨kv, hkv, htrue⟩ := hkv0
            rw [hnone kv hkv] at htrue
            exact absurd htrue (by simp)
          · exact ⟨p0, hmem0a, hname0, hkv0⟩
        obtain ⟨l1, p1, l2, t1, kv, t2, hps, htd, hname1, hl1, hpkv, ht1, hcr⟩ := ih hrest
        refine ⟨p :: l1, p1, l2, t1, kv, t2, by rw [hps, List.cons_append], htd, hname1, ?_, hpkv, ht1, ?_⟩
        · intro p2 hp2 hp2name kv2 hkv2
          rcases List.mem_cons.1 hp2 with rfl | hp2a
          · have h := hnone kv2 hkv2
            simp only [Bool.or_eq_false_iff] at h
            exact h
          · exact hl1 p2 hp2a hp2name kv2 hkv2
        · unfold crossLookup
          rw [if_pos hname, hfind]
          exact hcr
    · have hrest : ∃ p1 ∈ rest, lowerStr p1.name = nl ∧
          ∃ kv ∈ td, (containsSub (lowerStr p1.name) (normKey kv.1) ||
            containsSub (normKey kv.1) (lowerStr p1.name)) = true := by
        rcases List.mem_cons.1 hmem0 with rfl | hmem0a
        · exact absurd (beq_iff_eq.2 hname0) hname
        · exact ⟨p0, hmem0a, hname0, hkv0⟩
      obtain ⟨l1, p1, l2, t1, kv, t2, hps, htd, hname1, hl1, hpkv, ht1, hcr⟩ := ih hrest
      refine ⟨p :: l1, p1, l2, t1, kv, t2, by rw [hps, List.cons_append], htd, hname1, ?_, hpkv, ht1, ?_⟩
      · intro p2 hp2 hp2name kv2 hkv2
        rcases List.mem_cons.1 hp2 with rfl | hp2a
        · exact absurd (beq_iff_eq.2 hp2name) hname
        · exact hl1 p2 hp2a hp2name kv2 hkv2
      · unfold crossLookup
        rw [if_neg hname]
        exact hcr

/-- Counterexample for C1: over principles `[]` and the single transcript key
"big", the query "think big" has the normalized key "big" as a substring and
no exact match exists, yet `GetTranscript` returns `found = false` — the
second phase tests only whether the query is contained in a key, not the
reverse direction. -/
theorem getTranscript_bidir_cex :
    containsSub (lowerStr ("think big".data)) (normKey ("big".data)) = true ∧
    (∀ kv ∈ tdBig, normKey kv.1 ≠ lowerStr ("think big".data)) ∧
    (get_transcript emptyLP tdBig ("think big".data)).found = false := by
  decide

/-- C1 (amended): `GetTranscript` resolves by (1) exact normalized-key match
in dataset order; (2) a one-directional scan where the lowered query must be
a substring of a normalized key, first hit in dataset order; (3) when neither
applies, the principle-name cross-reference: the first case-insensitively
exactly-named principle that has a bidirectionally-matching normalized key
returns that transcript with `found = true` under the principle's original
name; (4) when that also fails everywhere, a not-found record. -/
theorem getTranscript_resolution (lp : LPData) (td : TranscriptData) (name : Str) :
    ((∃ kv ∈ td, normKey kv.1 = lowerStr name) →
      ∃ l1 kv l2, td = l1 ++ kv :: l2 ∧ normKey kv.1 = lowerStr name ∧
        (∀ kv2 ∈ l1, normKey kv2.1 ≠ lowerStr name) ∧
        get_transcript lp td name =
          ⟨displayName kv.1, kv.2, true, msgT1 (displayName kv.1)⟩) ∧
    ((∀ kv ∈ td, normKey kv.1 ≠ lowerStr name) →
      (∃ kv ∈ td, containsSub (normKey kv.1) (lowerStr name) = true) →
      ∃ l1 kv l2, td = l1 ++ kv :: l2 ∧
        containsSub (normKey kv.1) (lowerStr name) = true ∧
        (∀ kv2 ∈ l1, containsSub (normKey kv2.1) (lowerStr name) = false) ∧
        get_transcript lp td name =
          ⟨displayName kv.1, kv.2, true, msgT2 (displayName kv.1)⟩) ∧
    ((∀ kv ∈ td, normKey kv.1 ≠ lowerStr name ∧
        containsSub (normKey kv.1) (lowerStr name) = false) →
      (∃ p ∈ lp.principles, lowerStr p.name = lowerStr name ∧
        ∃ kv ∈ td, (containsSub (lowerStr p.name) (normKey kv.1) ||
          containsSub (normKey kv.1) (lowerStr p.name)) = true) →
      ∃ l1 p l2, lp.principles = l1 ++ p :: l2 ∧
        lowerStr p.name = lowerStr name ∧
        (∀ p2 ∈ l1, lowerStr p2.name = lowerStr name →
          ∀ kv2 ∈ td, containsSub (lowerStr p2.name) (normKey kv2.1) = false ∧
            containsSub (normKey kv2.1) (lowerStr p2.name) = false) ∧
        ∃ t1 kv t2, td = t1 ++ kv :: t2 ∧
          (containsSub (lowerStr p.name) (normKey kv.1) ||
            containsSub (normKey kv.1) (lowerStr p.name)) = true ∧
          (∀ kv2 ∈ t1, (containsSub (lowerStr p.name) (normKey kv2.1) ||
            containsSub (normKey kv2.1) (lowerStr p.name)) = false) ∧
          get_transcript lp td name = ⟨p.name, kv.2, true, msgT1 p.name⟩) ∧
    ((∀ kv ∈ td, normKey kv.1 ≠ lowerStr name ∧
        containsSub (normKey kv.1) (lowerStr name) = false) →
      (∀ p ∈ lp.principles, lowerStr p.name = lowerStr name →
        ∀ kv ∈ td, containsSub (lowerStr p.name) (normKey kv.1) = false ∧
          containsSub (normKey kv.1) (lowerStr p.name) = false) →
      get_transcript lp td name = ⟨name, [], false, msgT4 name⟩) := by
  have hfindnone : (∀ kv ∈ td, normKey kv.1 ≠ lowerStr name ∧
      containsSub (normKey kv.1) (lowerStr name) = false) →
      td.find? (fun kv => normKey kv.1 == lowerStr name) = none ∧
      td.find? (fun kv => containsSub (normKey kv.1) (lowerStr name)) = none := by
    intro hall
    constructor
    · apply List.find?_eq_none.2
      intro kv hkv
      simpa using (hall kv hkv).1
    · apply List.find?_eq_none.2
      intro kv hkv
      simp [(hall kv hkv).2]
  refine ⟨?_, ?_, ?_, ?_⟩
  · rintro ⟨kv0, hmem, heq⟩
    obtain ⟨b, hb⟩ := find?_isSome_of_mem
      (fun kv => normKey kv.1 == lowerStr name) td kv0 hmem (beq_iff_eq.2 heq)
    obtain ⟨l1, l2, hdec, hl1, hpb⟩ := find?_decomp _ _ _ hb
    refine ⟨l1, b, l2, hdec, beq_iff_eq.1 hpb, ?_, ?_⟩
    · intro kv2 hkv2 hcon
      have := hl1 kv2 hkv2
      rw [beq_iff_eq.2 hcon] at this
      exact absurd this (by simp)
    · unfold get_transcript
      rw [hb]
  · intro hnoex ⟨kv0, hmem, hcon⟩
    have hnone : td.find? (fun kv => normKey kv.1 == lowerStr name) = none := by
      apply List.find?_eq_none.2
      intro kv hkv
      simpa using hnoex kv hkv
    obtain ⟨b, hb⟩ := find?_isSome_of_mem
      (fun kv => containsSub (normKey kv.1) (lowerStr name)) td kv0 hmem hcon
    obtain ⟨l1, l2, hdec, hl1, hpb⟩ := find?_decomp _ _ _ hb
    refine ⟨l1, b, l2, hdec, hpb, fun kv2 hkv2 => hl1 kv2 hkv2, ?_⟩
    unfold get_transcript
    rw [hnone, hb]
  · intro hall hexists
    obtain ⟨h1, h2⟩ := hfindnone hall
    obtain ⟨l1, p, l2, t1, kv, t2, hps, htd, hname1, hl1, hpkv, ht1, hcr⟩ :=
      crossLookup_eq_some td (lowerStr name) lp.principles hexists
    refine ⟨l1, p, l2, hps, hname1, hl1, t1, kv, t2, htd, hpkv, ht1, ?_⟩
    unfold get_transcript
    rw [h1, h2, hcr]
  · intro hall hcross
    obtain ⟨h1, h2⟩ := hfindnone hall
    have h3 : crossLookup td (lowerStr name) lp.principles = none :=
      crossLookup_eq_none td (lowerStr name) lp.principles hcross
    unfold get_transcript
    rw [h1, h2, h3]

/-- Witness for C1 (amended): the exact phase fires on a concrete dataset. -/
theorem getTranscript_resolution_witness :
    (∃ kv ∈ tdA, normKey kv.1 = lowerStr ("a".data)) ∧
    (∃ l1 kv l2, tdA = l1 ++ kv :: l2 ∧ normKey kv.1 = lowerStr ("a".data) ∧
      (∀ kv2 ∈ l1, normKey kv2.1 ≠ lowerStr ("a".data)) ∧
      get_transcript emptyLP tdA ("a".data) =
        ⟨displayName kv.1, kv.2, true, msgT1 (displayName kv.1)⟩) :=
  ⟨⟨(("a".data : Str), ("T".data : Str)), by decide, by decide⟩,
   (getTranscript_resolution emptyLP tdA ("a".data)).1
     ⟨(("a".data : Str), ("T".data : Str)), by decide, by decide⟩⟩

/-- Counterexample for C5: the transcript key "customer-obsession" is stored,
yet the query "customer-obsession" — the slug itself — returns
`found = false`, because only the stored key is hyphen-normalized before
comparison, not the query. -/
theorem getTranscript_slug_cex :
    ((("customer-obsession".data : Str), ("T".data : Str)) ∈ tdCO) ∧
    (get_transcript emptyLP tdCO ("customer-obsession".data)).found = false ∧
    (get_transcript emptyLP tdCO ("customer obsession".data)).found = true := by
  decide

/-- C5 (amended): exact transcript lookup lower-cases the query and compares
it against the hyphen-to-space-normalized, lower-cased stored keys; hence the
spaced form of any stored slug exact-matches and returns that transcript with
`found = true`. -/
theorem getTranscript_spacedSlug (lp : LPData) (td : TranscriptData) (k t : Str)
    (hmem : (k, t) ∈ td) :
    ∃ kv : Str × Str, kv ∈ td ∧ normKey kv.1 = normKey k ∧
      get_transcript lp td (replaceDash k) =
        ⟨displayName kv.1, kv.2, true, msgT1 (displayName kv.1)⟩ := by
  have hpred : (fun kv : Str × Str => normKey kv.1 == lowerStr (replaceDash k)) (k, t) = true := by
    show (normKey k == lowerStr (replaceDash k)) = true
    exact beq_iff_eq.2 rfl
  obtain ⟨b, hb⟩ := find?_isSome_of_mem
    (fun kv => normKey kv.1 == lowerStr (replaceDash k)) td (k, t) hmem hpred
  obtain ⟨l1, l2, hdec, hl1, hpb⟩ := find?_decomp _ _ _ hb
  refine ⟨b, ?_, beq_iff_eq.1 hpb, ?_⟩
  · rw [hdec]
    exact List.mem_append.2 (Or.inr (List.mem_cons_self b l2))
  · unfold get_transcript
    rw [hb]

/-- Witness for C5 (amended): the spaced form of "customer-obsession" is
found. -/
theorem getTranscript_spacedSlug_witness :
    ((("customer-obsession".data : Str), ("T".data : Str)) ∈ tdCO) ∧
    (∃ kv : Str × Str, kv ∈ tdCO ∧ normKey kv.1 = normKey ("customer-obsession".data) ∧
      get_transcript emptyLP tdCO (replaceDash ("customer-obsession".data)) =
        ⟨displayName kv.1, kv.2, true, msgT1 (displayName kv.1)⟩) :=
  ⟨by decide,
   getTranscript_spacedSlug emptyLP tdCO ("customer-obsession".data) ("T".data) (by decide)⟩

/-- Counterexample for C7: when the data file exists but is unreadable, the
`except FileNotFoundError` clause does not apply and the error propagates
out of loading instead of yielding the empty default. -/
theorem loadUnreadable_cex :
    load_lp_data FileState.unreadable = Except.error PyError.permissionError ∧
    load_lp_data FileState.unreadable ≠ Except.ok emptyLP ∧
    load_transcript_data FileState.unreadable ≠ Except.ok ([] : TranscriptData) := by
  refine ⟨rfl, fun h => ?_, fun h => ?_⟩
  · exact Except.noConfusion h
  · exact Except.noConfusion h

/-- C7 (amended): when a data source is missing, loading returns the
well-formed empty default, and over those defaults every operation returns a
well-formed empty or negative result. -/
theorem loadMissing_defaults (q n : Str) :
    load_lp_data FileState.missing = Except.ok emptyLP ∧
    load_transcript_data FileState.missing = Except.ok ([] : TranscriptData) ∧
    list_principles emptyLP = ⟨[], []⟩ ∧
    (search_principles emptyLP q).matchList = [] ∧
    (get_principle emptyLP n).found = false ∧
    (get_principle emptyLP n).principle = none ∧
    get_introduction emptyLP = [] ∧
    (get_transcript emptyLP [] n).found = false ∧
    list_transcripts ([] : TranscriptData) = [] ∧
    (search_transcripts [] q).matchList = [] :=
  ⟨rfl, rfl, rfl, rfl, rfl, rfl, rfl, rfl, rfl, rfl⟩

theorem findSub_nil_needle (hay : Str) : findSub [] hay = some 0 := by
  cases hay <;> rfl

theorem mkContext_explicit (t q : Str) (i : Nat) (hf : findSub q (lowerStr t) = some i) :
    mkContext t q =
      (if 0 < i - 100 then ("...".data : Str) else []) ++
      ((t.drop (i - 100)).take (min t.length (i + q.length + 100) - (i - 100))) ++
      (if i + q.length + 100 < t.length then ("...".data : Str) else []) := by
  unfold mkContext firstIdx
  rw [hf]
  dsimp only
  by_cases h2 : i + q.length + 100 < t.length
  · rw [if_pos (by omega : min t.length (i + q.length + 100) < t.length), if_pos h2]
    by_cases h1 : 0 < i - 100
    · rw [if_pos h1, if_pos h1]
    · rw [if_neg h1, if_neg h1, List.nil_append]
  · rw [if_neg (by omega : ¬ min t.length (i + q.length + 100) < t.length), if_neg h2]
    by_cases h1 : 0 < i - 100
    · rw [if_pos h1, if_pos h1, List.append_nil]
    · rw [if_neg h1, if_neg h1, List.nil_append, List.append_nil]

theorem mkContext_nil_query (t : Str) :
    mkContext t [] = t.take 100 ++ (if 100 < t.length then ("...".data : Str) else []) := by
  have h := mkContext_explicit t [] 0 (findSub_nil_needle (lowerStr t))
  rw [h]
  have htake : t.take (min t.length 100) = t.take 100 := by
    rcases Nat.le_total t.length 100 with hle | hle
    · rw [Nat.min_eq_left hle, List.take_of_length_le (le_refl _),
        List.take_of_length_le hle]
    · rw [Nat.min_eq_right hle]
  simp only [List.length_nil, Nat.add_zero, Nat.zero_add, Nat.zero_sub,
    Nat.sub_zero, List.drop_zero, Nat.lt_irrefl, if_false, List.nil_append, htake]

theorem searchTMatches_nil_query :
    ∀ td : TranscriptData, searchTMatches [] td =
      td.map (fun kv => ⟨displayName kv.1,
        kv.2.take 100 ++ (if 100 < kv.2.length then ("...".data : Str) else [])⟩) := by
  intro td
  induction td with
  | nil => rfl
  | cons kv rest ih =>
    obtain ⟨k, t⟩ := kv
    have hc : containsSub (lowerStr t) [] = true := containsSub_nil_right _
    simp only [searchTMatches, hc, if_true, List.map_cons, ih, mkContext_nil_query]

/-- C2: `SearchTranscripts` returns one record per transcript whose lowered
body contains the lowered query, in dataset order; the record's context is
sliced from the original-cased text around the least occurrence index, up to
100 characters on each side clamped to the text bounds, with "..." prepended
iff the window starts after offset 0 and appended iff it stops before the end
of the text; the empty query matches every transcript with its window
anchored at offset 0. -/
theorem searchTranscripts_spec (td : TranscriptData) (query : Str) :
    (∃ f : Str × Str → TMatch,
      (search_transcripts td query).matchList =
        (td.filter (fun kv => containsSub (lowerStr kv.2) (lowerStr query))).map f ∧
      (∀ k t : Str, containsSub (lowerStr t) (lowerStr query) = true →
        ∃ i : Nat, occursAt (lowerStr t) (lowerStr query) i ∧
          (∀ j, j < i → ¬ occursAt (lowerStr t) (lowerStr query) j) ∧
          f (k, t) = ⟨titleStr (replaceDash k),
            (if 0 < i - 100 then ("...".data : Str) else []) ++
            ((t.drop (i - 100)).take
              (min t.length (i + (lowerStr query).length + 100) - (i - 100))) ++
            (if i + (lowerStr query).length + 100 < t.length
              then ("...".data : Str) else [])⟩)) ∧
    (lowerStr query = [] →
      (search_transcripts td query).matchList =
        td.map (fun kv => ⟨displayName kv.1,
          kv.2.take 100 ++ (if 100 < kv.2.length then ("...".data : Str) else [])⟩)) := by
  constructor
  · refine ⟨fun kv => ⟨displayName kv.1, mkContext kv.2 (lowerStr query)⟩, ?_, ?_⟩
    · exact searchTMatches_eq_filter (lowerStr query) td
    · intro k t hc
      have hsome : ∃ i, findSub (lowerStr query) (lowerStr t) = some i := by
        unfold containsSub at hc
        cases hfind : findSub (lowerStr query) (lowerStr t) with
        | some i => exact ⟨i, rfl⟩
        | none =>
          rw [hfind] at hc
          exact Bool.noConfusion hc
      obtain ⟨i, hi⟩ := hsome
      obtain ⟨hocc, hmin⟩ := findSub_eq_some (lowerStr query) (lowerStr t) i hi
      refine ⟨i, hocc, hmin, ?_⟩
      show (⟨displayName k, mkContext t (lowerStr query)⟩ : TMatch) = _
      rw [mkContext_explicit t (lowerStr query) i hi]
      rfl
  · intro hq
    have h1 : (search_transcripts td query).matchList = searchTMatches (lowerStr query) td :=
      rfl
    rw [h1, hq, searchTMatches_nil_query]

/-- Witness for C2: the empty query matches the single example transcript
with its full short text and no ellipses. -/
theorem searchTranscripts_spec_witness :
    (search_transcripts tdW ([] : Str)).matchList = [⟨"Think Big".data, "T1".data⟩] := by
  have h := (searchTranscripts_spec tdW []).2 rfl
  rw [h]
  rfl
